import Mathlib

/-!
Shallow embedding of the job-fanout and process-invocation core of the
cactus repository (src/cactus/shared/common.py): the fanout scheduler
(ChildTreeJob), resource rounding (RoundedJob), and the pure decision
logic of the process invoker (cactus_call), together with proofs of the
specified properties.
-/

set_option maxRecDepth 8000

namespace Cactus

/-- Default rounding granularity of RoundedJob: 100 MiB. -/
def roundingAmount : Nat := 100 * 1024 * 1024

/-- RoundedJob.roundUp: round a byte requirement up to the next multiple of
roundingAmount, leaving exact multiples unchanged. -/
def roundUp (bytesRequirement : Nat) : Nat :=
  if bytesRequirement % roundingAmount = 0 then bytesRequirement
  else (bytesRequirement / roundingAmount + 1) * roundingAmount

/-- Resource requirements held by a job after RoundedJob.__init__. -/
structure JobRequirements where
  memory : Option Nat
  disk : Option Nat
deriving DecidableEq

/-- RoundedJob.__init__: a declared memory requirement is rounded up; a
declared disk requirement receives a fixed 1500 * 1024 * 1024 byte
surcharge plus its rounded value. -/
def roundedJobInit (memory disk : Option Nat) : JobRequirements :=
  { memory := memory.map roundUp
    disk := disk.map (fun d => 1500 * 1024 * 1024 + roundUp d) }

/-- Outcome of cactus_call once the child process has terminated. -/
inductive CallOutcome where
  | retCode (code : Int)
  | retOutput (output : Option String)
  | raisedExit (code : Int) (diag : String)
  | raisedSignal (sigName : String) (diag : String)
deriving DecidableEq

/-- Python str() of an optional captured stream. -/
def pyStr : Option String → String
  | none => "None"
  | some s => s

/-- Diagnostic payload attached to cactus_call failures (the stdout part,
and the stderr part when it was swallowed). -/
def callDiag (output stderr : Option String) (swallowStdErr : Bool) : String :=
  "stdout=" ++ pyStr output ++ (if swallowStdErr then ", stderr=" ++ pyStr stderr else "")

/-- Modelled from the OS: Linux signal numbers to the names produced by
Python signal.Signals (external to the repository). -/
def signalName (n : Nat) : String :=
  if n = 1 then "SIGHUP" else if n = 2 then "SIGINT" else if n = 3 then "SIGQUIT"
  else if n = 6 then "SIGABRT" else if n = 9 then "SIGKILL" else if n = 11 then "SIGSEGV"
  else if n = 13 then "SIGPIPE" else if n = 15 then "SIGTERM" else "SIG" ++ toString n

/-- Tail of cactus_call once the child's return code is known: check_result
mode returns the code; otherwise a positive code raises an exit failure and
a negative one a signal failure, both carrying the captured streams; on
success the captured output (or None) is returned. -/
def cactusCallResult (check_result check_output swallowStdErr : Bool)
    (returncode : Int) (output stderr : Option String) : CallOutcome :=
  if check_result then .retCode returncode
  else if returncode ≠ 0 then
    if returncode > 0 then .raisedExit returncode (callDiag output stderr swallowStdErr)
    else .raisedSignal (signalName (-returncode).toNat) (callDiag output stderr swallowStdErr)
  else if check_output then .retOutput output
  else .retOutput none

/-- Signal number sent by the soft-timeout path (signal.SIGINT). -/
def SIGINT : Nat := 2

/-- Outcome of the cactus_call polling loop. -/
inductive PollOutcome where
  | completed (returncode : Int)
  | softTimedOut (sigSent : Nat)
deriving DecidableEq

/-- Does a child that terminates at time termT (none = never) finish by
time t? -/
def doneBy (termT : Option Nat) (t : Nat) : Bool :=
  match termT with
  | some T => T ≤ t
  | none => false

/-- Has more than soft_timeout seconds elapsed at time t? -/
def softExpired (soft_timeout : Option Nat) (t : Nat) : Bool :=
  match soft_timeout with
  | some s => decide (s < t)
  | none => false

/-- Polling loop of cactus_call: process.communicate with a 10 second
timeout; on each expiry, once more than soft_timeout seconds have elapsed,
SIGINT is sent to the child and the call returns None immediately (modelled
as softTimedOut SIGINT). fuel bounds the number of polls; none models a
loop still running after fuel polls. -/
def cactusCallPoll (soft_timeout : Option Nat) (termT : Option Nat) (returncode : Int) :
    Nat → Nat → Option PollOutcome
  | 0, _ => none
  | fuel + 1, elapsed =>
    if doneBy termT (elapsed + 10) then some (.completed returncode)
    else if softExpired soft_timeout (elapsed + 10) then some (.softTimedOut SIGINT)
    else cactusCallPoll soft_timeout termT returncode fuel (elapsed + 10)

/-- Characters that pipes.quote (shlex.quote) leaves unquoted, modelled from
the Python standard library (ASCII reading of the word character class). -/
def shellSafeChar (c : Char) : Bool :=
  c.isAlphanum || c == '_' || c == '@' || c == '%' || c == '+' || c == '=' || c == ':' ||
    c == ',' || c == '.' || c == '/' || c == '-'

/-- Apostrophe character. -/
def squoteChar : Char := '\''

/-- Double-quote character. -/
def dquoteChar : Char := '"'

/-- Replacement performed by shlex.quote inside a quoted token: each
apostrophe becomes the five characters apostrophe, double quote, apostrophe,
double quote, apostrophe. -/
def escapeQuotes : List Char → List Char
  | [] => []
  | c :: cs =>
    if c == squoteChar then
      squoteChar :: dquoteChar :: squoteChar :: dquoteChar :: squoteChar :: escapeQuotes cs
    else c :: escapeQuotes cs

/-- pipes.quote / shlex.quote, modelled from the Python standard library. -/
def shellQuote (s : String) : String :=
  if s.toList.isEmpty then ⟨[squoteChar, squoteChar]⟩
  else if s.toList.all shellSafeChar then s
  else ⟨squoteChar :: escapeQuotes s.toList ++ [squoteChar]⟩

/-- Join one pipeline stage: shell-quote each token and separate with
spaces. -/
def joinStage (q : List String) : String :=
  String.intercalate (" ") (q.map shellQuote)

/-- Guard prepended to every assembled pipe chain. -/
def pipefailPrelude : String := "set -eo pipefail && "

/-- Whole shell command assembled from a pipe chain: quoted stages joined
with the pipe separator behind the pipefail guard. -/
def chainJoined (stages : List (List String)) : String :=
  pipefailPrelude ++ String.intercalate (" | ") (stages.map joinStage)

/-- Pipe-chain handling of cactus_call: the chain is run via bash -c. -/
def pipeChainParams (stages : List (List String)) : List String :=
  ["bash", "-c", chainJoined stages]

/-- Docker adjustment for pipe chains: the entry point becomes /bin/bash and
the leading bash token is dropped from the parameters. -/
def pipeChainDocker (stages : List (List String)) : String × List String :=
  ("/bin/bash", (pipeChainParams stages).drop 1)

/-- dockerCommand's entry point selection: an explicit entry point when
given, otherwise the default cactus wrapper. -/
def dockerEntrypoint : Option String → String
  | some e => e
  | none => "/opt/cactus/wrapper.sh"

/-- One docker-poll memory check of cactus_call: a failed sample (none)
leaves the recorded peak unchanged; a successful sample must be at least the
recorded peak (the assert) and becomes the new peak; the result none models
the assertion firing. -/
def memCheckStep (memUsage : Nat) (sample : Option Nat) : Option Nat :=
  match sample with
  | none => some memUsage
  | some updated => if memUsage ≤ updated then some updated else none

/-- Recorded peaks across successive polls, or none once the monotonicity
assertion fails. -/
def memCheckTrace : Nat → List (Option Nat) → Option (List Nat)
  | _, [] => some []
  | memUsage, s :: rest =>
    match memCheckStep memUsage s with
    | none => none
    | some m => (memCheckTrace m rest).map (fun t => m :: t)

/-- Python posixpath.dirname, modelled from the Python standard library: the
part up to the last slash, trailing slashes stripped unless the result is
all slashes. -/
def dirname (p : String) : String :=
  let head := (p.toList.reverse.dropWhile (fun c => !(c == '/'))).reverse
  if head.isEmpty || head.all (fun c => c == '/') then ⟨head⟩
  else ⟨(head.reverse.dropWhile (fun c => c == '/')).reverse⟩

/-- Longest common prefix of two character lists. -/
def lcp2 : List Char → List Char → List Char
  | a :: as, b :: bs => if a = b then a :: lcp2 as bs else []
  | _, _ => []

/-- Python os.path.commonprefix, modelled from the Python standard library:
the longest common string prefix of all the given paths. -/
def commonPref : List (List Char) → List Char
  | [] => []
  | x :: xs => xs.foldl lcp2 x

/-- Parent directories inferred by prepareWorkDir from the arguments that
are existing files or existing directories (the filesystem is passed in as
two predicates), without duplicates. -/
def inferredDirs (isFile isDir : String → Bool) (parameters : List String) : List String :=
  (((parameters.filter isFile).map dirname) ++ ((parameters.filter isDir).map dirname)).dedup

/-- prepareWorkDir with no explicit work_dir: a single inferred directory is
used directly, several degrade to their common prefix, and an empty result
means the current directory. -/
def prepareWorkDirInfer (isFile isDir : String → Bool) (parameters : List String) : String :=
  let work_dirs := inferredDirs isFile isDir parameters
  let wd : String :=
    if 1 < work_dirs.length then ⟨commonPref (work_dirs.map String.toList)⟩
    else match work_dirs with
      | [d] => d
      | _ => ""
  if wd = "" then "." else wd

/-- State of a ChildTreeJob unit: the queue filled by addChild, and the
unit's actual children in the scheduling graph. -/
structure ChildTreeJobState where
  queuedChildJobs : List Nat
  children : List Nat
deriving DecidableEq

/-- ChildTreeJob.addChild: append the job to the queue and return it. -/
def addChild (st : ChildTreeJobState) (job : Nat) : ChildTreeJobState × Nat :=
  ({ st with queuedChildJobs := st.queuedChildJobs ++ [job] }, job)

/-! Fanout scheduler (ChildTreeJob._run).  Jobs are identified by natural
numbers: 0 is the root unit, 1 .. N are the queued child jobs, and fresh
grouping units receive identifiers from N + 1 upward.  The scheduling graph
is the list of (parent, child) attachment edges. -/

/-- Attachment edges of the scheduling graph: (parent, child) pairs. -/
abbrev Edges := List (Nat × Nat)

/-- Number of direct children of a unit. -/
def countChildren (edges : Edges) (p : Nat) : Nat :=
  edges.countP (fun e => e.1 == p)

/-- Number of times a unit occurs as somebody's child. -/
def countParents (edges : Edges) (c : Nat) : Nat :=
  edges.countP (fun e => e.2 == c)

/-- Mutable state while building the tree: the next fresh grouping-unit
identifier and the edges attached so far. -/
structure TreeState where
  nextId : Nat
  edges : Edges

/-- The mc fresh grouping-unit identifiers allocated from n upward. -/
def freshIds (n mc : Nat) : List Nat := (List.range mc).map (fun j => n + j)

/-- One step of the level-filling loop of ChildTreeJob._run: while the level
under construction cannot yet host every queued job, the parent is expanded
into maxChildrenPerJob fresh grouping units; afterwards the parent itself is
passed through into the level. -/
def expandParent (mc N : Nat) (acc : TreeState × List Nat) (p : Nat) : TreeState × List Nat :=
  if acc.2.length * mc < N then
    ⟨⟨acc.1.nextId + mc, acc.1.edges ++ (freshIds acc.1.nextId mc).map (fun c => (p, c))⟩,
      acc.2 ++ freshIds acc.1.nextId mc⟩
  else ⟨acc.1, acc.2 ++ [p]⟩

/-- One full level of the tree-filling loop. -/
def expandLevel (mc N : Nat) (parents : List Nat) (st : TreeState) : TreeState × List Nat :=
  parents.foldl (expandParent mc N) ⟨st, []⟩

/-- The num_levels iterations of the level-filling loop, returning the final
state and the frontier that will host the queued jobs. -/
def buildLevels (mc N : Nat) : Nat → List Nat → TreeState → TreeState × List Nat
  | 0, parents, st => ⟨st, parents⟩
  | k + 1, parents, st =>
    let r := expandLevel mc N parents st
    buildLevels mc N k r.2 r.1

/-- Leaf distribution of ChildTreeJob._run: each frontier unit receives at
most maxChildrenPerJob of the still unattached queued jobs, in order.
Returns the edges and the jobs left unattached (the final assert demands
that none are left). -/
def addLeaves (mc : Nat) : List Nat → List Nat → Edges → Edges × List Nat
  | [], remaining, edges => ⟨edges, remaining⟩
  | p :: ps, remaining, edges =>
    addLeaves mc ps (remaining.drop (min remaining.length mc))
      (edges ++ (remaining.take (min remaining.length mc)).map (fun c => (p, c)))

/-- Identifiers of the N queued child jobs. -/
def queuedIds (N : Nat) : List Nat := (List.range N).map (fun i => i + 1)

/-- Fuel-driven floor logarithm (math.floor(math.log(n, b))). -/
def floorLogFuel : Nat → Nat → Nat → Nat
  | 0, _, _ => 0
  | fuel + 1, b, n => if n < b then 0 else floorLogFuel fuel b (n / b) + 1

/-- Floor logarithm used for the number of intermediate levels. -/
def floorLog (b n : Nat) : Nat := floorLogFuel n b n

/-- ChildTreeJob._run with N queued jobs and fanout bound mc: when the queue
fits, every queued job is attached directly under the root; otherwise the
level-filling loop runs floor(log_mc N) times and the queued jobs are
distributed over the resulting frontier.  Returns the attachment edges and
the queued jobs the final assert would find unattached. -/
def childTreeJobRun (N mc : Nat) : Edges × List Nat :=
  if N ≤ mc then ⟨(queuedIds N).map (fun c => (0, c)), []⟩
  else
    let r := buildLevels mc N (floorLog mc N) [0] ⟨N + 1, []⟩
    addLeaves mc r.2 (queuedIds N) r.1.edges

/-- Grouping units present in the graph: children with identifiers beyond
the queued range, one entry each. -/
def groupingUnits (N : Nat) (edges : Edges) : List Nat :=
  ((edges.map Prod.snd).filter (fun c => decide (N + 1 ≤ c))).dedup

/-- Direct children of a unit, in attachment order. -/
def childrenOf (edges : Edges) (p : Nat) : List Nat :=
  (edges.filter (fun e => e.1 == p)).map Prod.snd

/-- Units at a given depth below the root. -/
def nodesAtDepth (edges : Edges) : Nat → List Nat
  | 0 => [0]
  | k + 1 => (nodesAtDepth edges k).flatMap (childrenOf edges)

/-- Invariant carried through the level-filling loop: the pending frontier
(level under construction plus yet unprocessed parents) has no duplicates,
consists of childless units that are either the root or grouping units with
already allocated identifiers, every unit so far has at most mc children,
and every edge attaches a grouping unit to the root or to a grouping unit. -/
def Inv (N mc : Nat) (st : TreeState) (xs : List Nat) : Prop :=
  xs.Nodup ∧
  (∀ p ∈ xs, countChildren st.edges p = 0) ∧
  (∀ p ∈ xs, p < st.nextId) ∧
  (∀ p ∈ xs, p = 0 ∨ N + 1 ≤ p) ∧
  (∀ u, countChildren st.edges u ≤ mc) ∧
  (∀ e ∈ st.edges, (N + 1 ≤ e.2 ∧ e.2 < st.nextId) ∧ (e.1 = 0 ∨ N + 1 ≤ e.1) ∧ e.1 < st.nextId) ∧
  N + 1 ≤ st.nextId

/-! Helper lemmas. -/

lemma roundUp_spec (x : Nat) :
    x ≤ roundUp x ∧ roundUp x % roundingAmount = 0 ∧
      ∀ k, x ≤ k → k % roundingAmount = 0 → roundUp x ≤ k := by
  have hra : roundingAmount = 104857600 := by norm_num [roundingAmount]
  unfold roundUp
  rw [hra]
  by_cases h : x % 104857600 = 0
  · rw [if_pos h]
    exact ⟨le_refl x, h, fun k hk _ => hk⟩
  · rw [if_neg h]
    refine ⟨?_, ?_, ?_⟩
    · omega
    · omega
    · intro k hk hk0
      omega

lemma memCheckStep_mono (memUsage : Nat) (s : Option Nat) (m : Nat)
    (h : memCheckStep memUsage s = some m) : memUsage ≤ m := by
  cases s with
  | none =>
    simp [memCheckStep] at h
    omega
  | some u =>
    by_cases hc : memUsage ≤ u
    · simp [memCheckStep, hc] at h
      omega
    · simp [memCheckStep, hc] at h

lemma memCheckTrace_chain (samples : List (Option Nat)) :
    ∀ init trace, memCheckTrace init samples = some trace →
      List.Chain (· ≤ ·) init trace := by
  induction samples with
  | nil =>
    intro init trace h
    simp [memCheckTrace] at h
    subst h
    exact List.Chain.nil
  | cons s rest ih =>
    intro init trace h
    rw [memCheckTrace] at h
    cases hstep : memCheckStep init s with
    | none => simp [hstep] at h
    | some m =>
      simp only [hstep] at h
      cases htr : memCheckTrace m rest with
      | none => simp [htr] at h
      | some t =>
        simp only [htr, Option.map_some'] at h
        rw [Option.some_inj] at h
        subst h
        exact List.Chain.cons (memCheckStep_mono init s m hstep) (ih m t htr)

lemma lcp2_prefix_left : ∀ a b : List Char, lcp2 a b <+: a := by
  intro a
  induction a with
  | nil => intro b; cases b <;> exact List.nil_prefix
  | cons x xs ih =>
    intro b
    cases b with
    | nil => exact List.nil_prefix
    | cons y ys =>
      rw [lcp2]
      by_cases h : x = y
      · rw [if_pos h]
        exact (List.prefix_cons_inj x).mpr (ih ys)
      · rw [if_neg h]
        exact List.nil_prefix

lemma lcp2_prefix_right : ∀ a b : List Char, lcp2 a b <+: b := by
  intro a
  induction a with
  | nil => intro b; cases b <;> exact List.nil_prefix
  | cons x xs ih =>
    intro b
    cases b with
    | nil => exact List.nil_prefix
    | cons y ys =>
      rw [lcp2]
      by_cases h : x = y
      · rw [if_pos h, h]
        exact (List.prefix_cons_inj y).mpr (ih ys)
      · rw [if_neg h]
        exact List.nil_prefix

lemma prefix_lcp2 : ∀ c a b : List Char, c <+: a → c <+: b → c <+: lcp2 a b := by
  intro c
  induction c with
  | nil => intro a b _ _; exact List.nil_prefix
  | cons x cs ih =>
    intro a b ha hb
    cases a with
    | nil => exact absurd (List.prefix_nil.mp ha) (by simp)
    | cons y ys =>
      cases b with
      | nil => exact absurd (List.prefix_nil.mp hb) (by simp)
      | cons z zs =>
        obtain ⟨hxy, hys⟩ := List.cons_prefix_cons.mp ha
        obtain ⟨hxz, hzs⟩ := List.cons_prefix_cons.mp hb
        subst hxy
        rw [lcp2, if_pos hxz]
        exact List.cons_prefix_cons.mpr ⟨rfl, ih ys zs hys hzs⟩

lemma foldl_lcp2_pref (xs : List (List Char)) :
    ∀ x : List Char, xs.foldl lcp2 x <+: x ∧ ∀ y ∈ xs, xs.foldl lcp2 x <+: y := by
  induction xs with
  | nil => intro x; exact ⟨List.prefix_refl x, by simp⟩
  | cons y ys ih =>
    intro x
    rw [List.foldl_cons]
    obtain ⟨h1, h2⟩ := ih (lcp2 x y)
    refine ⟨h1.trans (lcp2_prefix_left x y), ?_⟩
    intro z hz
    rcases List.mem_cons.mp hz with hz | hz
    · subst hz
      exact h1.trans (lcp2_prefix_right x z)
    · exact h2 z hz

lemma prefix_foldl_lcp2 (xs : List (List Char)) :
    ∀ x c : List Char, c <+: x → (∀ y ∈ xs, c <+: y) → c <+: xs.foldl lcp2 x := by
  induction xs with
  | nil => intro x c hx _; exact hx
  | cons y ys ih =>
    intro x c hx hall
    rw [List.foldl_cons]
    exact ih (lcp2 x y) c (prefix_lcp2 c x y hx (hall y (List.mem_cons_self y ys)))
      (fun z hz => hall z (List.mem_cons_of_mem y hz))

lemma commonPref_spec (l : List (List Char)) (hne : l ≠ []) :
    (∀ d ∈ l, commonPref l <+: d) ∧
      ∀ c : List Char, (∀ d ∈ l, c <+: d) → c <+: commonPref l := by
  cases l with
  | nil => exact absurd rfl hne
  | cons x xs =>
    rw [commonPref]
    constructor
    · intro d hd
      rcases List.mem_cons.mp hd with hd | hd
      · subst hd; exact (foldl_lcp2_pref xs d).1
      · exact (foldl_lcp2_pref xs x).2 d hd
    · intro c hc
      exact prefix_foldl_lcp2 xs x c (hc x (List.mem_cons_self x xs))
        (fun y hy => hc y (List.mem_cons_of_mem x hy))

/-! Helper lemmas for the fanout scheduler. -/

lemma countChildren_append (es fs : Edges) (p : Nat) :
    countChildren (es ++ fs) p = countChildren es p + countChildren fs p := by
  simp [countChildren, List.countP_append]

lemma countParents_append (es fs : Edges) (c : Nat) :
    countParents (es ++ fs) c = countParents es c + countParents fs c := by
  simp [countParents, List.countP_append]

lemma countChildren_eq_zero (es : Edges) (p : Nat) (h : ∀ e ∈ es, e.1 ≠ p) :
    countChildren es p = 0 := by
  rw [countChildren, List.countP_eq_zero]
  intro e he
  simpa using h e he

lemma countParents_eq_zero (es : Edges) (c : Nat) (h : ∀ e ∈ es, e.2 ≠ c) :
    countParents es c = 0 := by
  rw [countParents, List.countP_eq_zero]
  intro e he
  simpa using h e he

lemma countChildren_map_pair (l : List Nat) (p q : Nat) :
    countChildren (l.map (fun c => (p, c))) q = if q = p then l.length else 0 := by
  by_cases h : q = p
  · subst h
    simp [countChildren, List.countP_map, Function.comp_def]
  · rw [if_neg h]
    apply countChildren_eq_zero
    intro e he
    obtain ⟨x, _, rfl⟩ := List.mem_map.mp he
    exact fun hc => h hc.symm

lemma countParents_map_pair (l : List Nat) (p c : Nat) :
    countParents (l.map (fun x => (p, x))) c = l.count c := by
  simp [countParents, List.countP_map, Function.comp_def, List.count]

lemma length_freshIds (n mc : Nat) : (freshIds n mc).length = mc := by
  simp [freshIds]

lemma mem_freshIds {a n mc : Nat} : a ∈ freshIds n mc ↔ n ≤ a ∧ a < n + mc := by
  simp only [freshIds, List.mem_map, List.mem_range]
  constructor
  · rintro ⟨j, hj, rfl⟩
    omega
  · intro h
    exact ⟨a - n, by omega, by omega⟩

lemma nodup_freshIds (n mc : Nat) : (freshIds n mc).Nodup :=
  List.Nodup.map (fun a b h => by omega) (List.nodup_range mc)

lemma length_queuedIds (N : Nat) : (queuedIds N).length = N := by
  simp [queuedIds]

lemma mem_queuedIds {N c : Nat} : c ∈ queuedIds N ↔ 1 ≤ c ∧ c ≤ N := by
  simp only [queuedIds, List.mem_map, List.mem_range]
  constructor
  · rintro ⟨i, hi, rfl⟩
    omega
  · intro h
    exact ⟨c - 1, by omega, by omega⟩

lemma nodup_queuedIds (N : Nat) : (queuedIds N).Nodup :=
  List.Nodup.map (fun a b h => by omega) (List.nodup_range N)

lemma floorLogFuel_bound (b : Nat) (hb : 2 ≤ b) :
    ∀ fuel n, n ≤ fuel → n < b ^ (floorLogFuel fuel b n + 1) := by
  intro fuel
  induction fuel with
  | zero =>
    intro n hn
    have hn0 : n = 0 := by omega
    subst hn0
    rw [floorLogFuel, pow_one]
    omega
  | succ m ih =>
    intro n hn
    rw [floorLogFuel]
    by_cases h : n < b
    · rw [if_pos h, pow_one]
      exact h
    · rw [if_neg h]
      have hdlt : n / b < n := Nat.div_lt_self (by omega) (by omega)
      have hrec := ih (n / b) (by omega)
      have h1 : n < (n / b + 1) * b := by
        have hmod : n % b < b := Nat.mod_lt n (by omega)
        have hdm := Nat.div_add_mod n b
        have hmul : (n / b + 1) * b = b * (n / b) + b := by ring
        omega
      have h2 : n / b + 1 ≤ b ^ (floorLogFuel m b (n / b) + 1) := hrec
      calc n < (n / b + 1) * b := h1
        _ ≤ b ^ (floorLogFuel m b (n / b) + 1) * b := Nat.mul_le_mul_right b h2
        _ = b ^ (floorLogFuel m b (n / b) + 1 + 1) := (pow_succ b _).symm

lemma floorLog_bound (b n : Nat) (hb : 2 ≤ b) : n < b ^ (floorLog b n + 1) :=
  floorLogFuel_bound b hb n n (le_refl n)

lemma expandParent_inv (N mc : Nat) (st : TreeState) (level rest : List Nat) (p : Nat)
    (h : Inv N mc st (level ++ p :: rest)) :
    Inv N mc (expandParent mc N ⟨st, level⟩ p).1 ((expandParent mc N ⟨st, level⟩ p).2 ++ rest) := by
  obtain ⟨hnd, hzero, hlt, hrange, hbound, hedge, hnext⟩ := h
  have hmemL : ∀ q ∈ level, q ∈ level ++ p :: rest := fun q hq => List.mem_append_left _ hq
  have hmemP : p ∈ level ++ p :: rest := List.mem_append_right _ (List.mem_cons_self p rest)
  have hmemR : ∀ q ∈ rest, q ∈ level ++ p :: rest :=
    fun q hq => List.mem_append_right _ (List.mem_cons_of_mem p hq)
  obtain ⟨hndL, hndPR, hdisj⟩ := List.nodup_append.mp hnd
  obtain ⟨hpR, hndR⟩ := List.nodup_cons.mp hndPR
  have hpL : p ∉ level := fun hp => hdisj hp (List.mem_cons_self p rest)
  have hplt : p < st.nextId := hlt p hmemP
  have hLlt : ∀ q ∈ level, q < st.nextId := fun q hq => hlt q (hmemL q hq)
  have hRlt : ∀ q ∈ rest, q < st.nextId := fun q hq => hlt q (hmemR q hq)
  by_cases hc : level.length * mc < N
  case neg =>
    simp only [expandParent, if_neg hc]
    have heq : (level ++ [p]) ++ rest = level ++ p :: rest := by simp
    rw [heq]
    exact ⟨hnd, hzero, hlt, hrange, hbound, hedge, hnext⟩
  case pos =>
    simp only [expandParent, if_pos hc]
    unfold Inv
    dsimp only
    have hsplit : ∀ q, q ∈ (level ++ freshIds st.nextId mc) ++ rest →
        q ∈ level ∨ q ∈ freshIds st.nextId mc ∨ q ∈ rest := by
      intro q hq
      rcases List.mem_append.mp hq with h1 | h2
      · rcases List.mem_append.mp h1 with ha | hb
        exacts [Or.inl ha, Or.inr (Or.inl hb)]
      · exact Or.inr (Or.inr h2)
    refine ⟨?_, ?_, ?_, ?_, ?_, ?_, ?_⟩
    · rw [List.append_assoc, List.nodup_append]
      refine ⟨hndL, ?_, ?_⟩
      · rw [List.nodup_append]
        refine ⟨nodup_freshIds _ _, hndR, ?_⟩
        intro a haF haR
        have h1 := mem_freshIds.mp haF
        have h2 := hRlt a haR
        omega
      · intro a haL haFR
        rcases List.mem_append.mp haFR with haF | haR
        · have h1 := mem_freshIds.mp haF
          have h2 := hLlt a haL
          omega
        · exact hdisj haL (List.mem_cons_of_mem p haR)
    · intro q hq
      have hqne : q ≠ p := by
        rcases hsplit q hq with hL | hF | hR
        · exact fun he => hpL (he ▸ hL)
        · have := mem_freshIds.mp hF
          omega
        · exact fun he => hpR (he ▸ hR)
      rw [countChildren_append, countChildren_map_pair, if_neg hqne]
      rcases hsplit q hq with hL | hF | hR
      · rw [hzero q (hmemL q hL)]
      · have hge := (mem_freshIds.mp hF).1
        rw [countChildren_eq_zero st.edges q (fun e he => by
          have := (hedge e he).2.2
          omega)]
      · rw [hzero q (hmemR q hR)]
    · intro q hq
      rcases hsplit q hq with hL | hF | hR
      · have := hLlt q hL
        omega
      · have := mem_freshIds.mp hF
        omega
      · have := hRlt q hR
        omega
    · intro q hq
      rcases hsplit q hq with hL | hF | hR
      · exact hrange q (hmemL q hL)
      · have := mem_freshIds.mp hF
        right
        omega
      · exact hrange q (hmemR q hR)
    · intro u
      rw [countChildren_append, countChildren_map_pair]
      by_cases hu : u = p
      · subst hu
        rw [hzero u hmemP, if_pos rfl, length_freshIds]
        omega
      · rw [if_neg hu]
        have := hbound u
        omega
    · intro e he
      rcases List.mem_append.mp he with hold | hnew
      · obtain ⟨⟨h1, h2⟩, h3, h4⟩ := hedge e hold
        exact ⟨⟨h1, by omega⟩, h3, by omega⟩
      · obtain ⟨c, hcF, rfl⟩ := List.mem_map.mp hnew
        have hcb := mem_freshIds.mp hcF
        exact ⟨⟨by omega, by omega⟩, hrange p hmemP, by omega⟩
    · omega

lemma expandFold_inv (N mc : Nat) :
    ∀ (parents : List Nat) (st : TreeState) (level : List Nat),
      Inv N mc st (level ++ parents) →
      Inv N mc (parents.foldl (expandParent mc N) ⟨st, level⟩).1
        (parents.foldl (expandParent mc N) ⟨st, level⟩).2 := by
  intro parents
  induction parents with
  | nil =>
    intro st level h
    simpa using h
  | cons p ps ih =>
    intro st level h
    rw [List.foldl_cons]
    have h1 := expandParent_inv N mc st level ps p h
    have h2 := ih (expandParent mc N ⟨st, level⟩ p).1 (expandParent mc N ⟨st, level⟩ p).2 h1
    simpa using h2

lemma expandFold_length (N mc : Nat) (hmc : 1 ≤ mc) :
    ∀ (parents : List Nat) (st : TreeState) (level : List Nat),
      level.length + parents.length ≤ (parents.foldl (expandParent mc N) ⟨st, level⟩).2.length := by
  intro parents
  induction parents with
  | nil =>
    intro st level
    simp
  | cons p ps ih =>
    intro st level
    rw [List.foldl_cons]
    have hstep : level.length + 1 ≤ (expandParent mc N ⟨st, level⟩ p).2.length := by
      by_cases hc : level.length * mc < N
      · simp only [expandParent, if_pos hc, List.length_append, length_freshIds]
        omega
      · simp only [expandParent, if_neg hc, List.length_append, List.length_cons,
          List.length_nil]
        omega
    have h2 := ih (expandParent mc N ⟨st, level⟩ p).1 (expandParent mc N ⟨st, level⟩ p).2
    have h3 : (ps.foldl (expandParent mc N)
        ⟨(expandParent mc N ⟨st, level⟩ p).1, (expandParent mc N ⟨st, level⟩ p).2⟩).2.length =
        (ps.foldl (expandParent mc N) (expandParent mc N ⟨st, level⟩ p)).2.length := rfl
    rw [h3] at h2
    simp only [List.length_cons]
    omega

lemma expandFold_capacity (N mc : Nat) (hmc : 1 ≤ mc) :
    ∀ (parents : List Nat) (st : TreeState) (level : List Nat),
      (parents.foldl (expandParent mc N) ⟨st, level⟩).2.length =
          level.length + mc * parents.length ∨
        N ≤ (parents.foldl (expandParent mc N) ⟨st, level⟩).2.length * mc := by
  intro parents
  induction parents with
  | nil =>
    intro st level
    left
    simp
  | cons p ps ih =>
    intro st level
    rw [List.foldl_cons]
    by_cases hc : level.length * mc < N
    · have hlen : (expandParent mc N ⟨st, level⟩ p).2.length = level.length + mc := by
        simp only [expandParent, if_pos hc, List.length_append, length_freshIds]
      have h2 := ih (expandParent mc N ⟨st, level⟩ p).1 (expandParent mc N ⟨st, level⟩ p).2
      have h3 : (ps.foldl (expandParent mc N)
          ⟨(expandParent mc N ⟨st, level⟩ p).1, (expandParent mc N ⟨st, level⟩ p).2⟩) =
          ps.foldl (expandParent mc N) (expandParent mc N ⟨st, level⟩ p) := rfl
      rw [h3] at h2
      rcases h2 with h2 | h2
      · left
        rw [h2, hlen, List.length_cons, Nat.mul_succ]
        omega
      · right
        exact h2
    · right
      have hN : N ≤ level.length * mc := by omega
      have hgrow := expandFold_length N mc hmc ps (expandParent mc N ⟨st, level⟩ p).1
        (expandParent mc N ⟨st, level⟩ p).2
      have hstep : level.length ≤ (expandParent mc N ⟨st, level⟩ p).2.length := by
        simp only [expandParent, if_neg hc, List.length_append]
        omega
      have h3 : (ps.foldl (expandParent mc N)
          ⟨(expandParent mc N ⟨st, level⟩ p).1, (expandParent mc N ⟨st, level⟩ p).2⟩) =
          ps.foldl (expandParent mc N) (expandParent mc N ⟨st, level⟩ p) := rfl
      rw [h3] at hgrow
      have hle : level.length ≤ (ps.foldl (expandParent mc N)
          (expandParent mc N ⟨st, level⟩ p)).2.length := by omega
      calc N ≤ level.length * mc := hN
        _ ≤ (ps.foldl (expandParent mc N) (expandParent mc N ⟨st, level⟩ p)).2.length * mc :=
          Nat.mul_le_mul_right mc hle

lemma buildLevels_inv (N mc : Nat) :
    ∀ (k : Nat) (parents : List Nat) (st : TreeState),
      Inv N mc st parents →
      Inv N mc (buildLevels mc N k parents st).1 (buildLevels mc N k parents st).2 := by
  intro k
  induction k with
  | zero =>
    intro parents st h
    exact h
  | succ m ih =>
    intro parents st h
    rw [buildLevels]
    have h1 : Inv N mc (expandLevel mc N parents st).1 (expandLevel mc N parents st).2 := by
      have := expandFold_inv N mc parents st [] (by simpa using h)
      simpa [expandLevel] using this
    exact ih _ _ h1

lemma buildLevels_length (N mc : Nat) (hmc : 1 ≤ mc) :
    ∀ (k : Nat) (parents : List Nat) (st : TreeState),
      parents.length ≤ (buildLevels mc N k parents st).2.length := by
  intro k
  induction k with
  | zero =>
    intro parents st
    rw [buildLevels]
  | succ m ih =>
    intro parents st
    rw [buildLevels]
    have h1 : parents.length ≤ (expandLevel mc N parents st).2.length := by
      have := expandFold_length N mc hmc parents st []
      simpa [expandLevel] using this
    exact h1.trans (ih _ _)

lemma buildLevels_capacity (N mc : Nat) (hmc : 1 ≤ mc) :
    ∀ (k : Nat) (parents : List Nat) (st : TreeState),
      mc ^ k * parents.length ≤ (buildLevels mc N k parents st).2.length ∨
        N ≤ (buildLevels mc N k parents st).2.length * mc := by
  intro k
  induction k with
  | zero =>
    intro parents st
    left
    rw [buildLevels]
    simp
  | succ m ih =>
    intro parents st
    rw [buildLevels]
    rcases expandFold_capacity N mc hmc parents st [] with hfull | hcap
    · rcases ih (expandLevel mc N parents st).2 (expandLevel mc N parents st).1 with h | h
      · left
        have hfull' : (expandLevel mc N parents st).2.length = mc * parents.length := by
          simpa [expandLevel] using hfull
        calc mc ^ (m + 1) * parents.length = mc ^ m * (mc * parents.length) := by ring
          _ = mc ^ m * (expandLevel mc N parents st).2.length := by rw [hfull']
          _ ≤ _ := h
      · right
        exact h
    · right
      have hcap' : N ≤ (expandLevel mc N parents st).2.length * mc := by
        simpa [expandLevel] using hcap
      have hle := buildLevels_length N mc hmc m (expandLevel mc N parents st).2
        (expandLevel mc N parents st).1
      calc N ≤ (expandLevel mc N parents st).2.length * mc := hcap'
        _ ≤ _ := Nat.mul_le_mul_right mc hle

lemma addLeaves_leftover (mc : Nat) :
    ∀ (ps rem : List Nat) (edges : Edges),
      (addLeaves mc ps rem edges).2.length = rem.length - ps.length * mc := by
  intro ps
  induction ps with
  | nil =>
    intro rem edges
    simp [addLeaves]
  | cons p ps ih =>
    intro rem edges
    rw [addLeaves, ih, List.length_drop, List.length_cons, Nat.succ_mul]
    omega

lemma addLeaves_countParents (mc : Nat) :
    ∀ (ps rem : List Nat) (edges : Edges) (c : Nat),
      countParents (addLeaves mc ps rem edges).1 c + (addLeaves mc ps rem edges).2.count c =
        countParents edges c + rem.count c := by
  intro ps
  induction ps with
  | nil =>
    intro rem edges c
    simp [addLeaves]
  | cons p ps ih =>
    intro rem edges c
    rw [addLeaves, ih, countParents_append, countParents_map_pair]
    have hsplit : rem.count c = (rem.take (min rem.length mc)).count c +
        (rem.drop (min rem.length mc)).count c := by
      rw [← List.count_append, List.take_append_drop]
    omega

lemma addLeaves_countChildren (mc : Nat) :
    ∀ (ps rem : List Nat) (edges : Edges), ps.Nodup → ∀ u,
      (u ∉ ps → countChildren (addLeaves mc ps rem edges).1 u = countChildren edges u) ∧
      (u ∈ ps → countChildren (addLeaves mc ps rem edges).1 u ≤ countChildren edges u + mc) := by
  intro ps
  induction ps with
  | nil =>
    intro rem edges _ u
    refine ⟨fun _ => ?_, fun hu => absurd hu (List.not_mem_nil u)⟩
    simp [addLeaves]
  | cons p ps ih =>
    intro rem edges hnd u
    obtain ⟨hp, hps⟩ := List.nodup_cons.mp hnd
    rw [addLeaves]
    have hlen : (rem.take (min rem.length mc)).length ≤ mc := by
      rw [List.length_take]
      omega
    constructor
    · intro hu
      have hup : u ≠ p := fun he => hu (he ▸ List.mem_cons_self p ps)
      have hups : u ∉ ps := fun hin => hu (List.mem_cons_of_mem p hin)
      rw [(ih _ _ hps u).1 hups, countChildren_append, countChildren_map_pair, if_neg hup]
      omega
    · intro hu
      rcases List.mem_cons.mp hu with hu | hu
      · subst hu
        rw [(ih _ _ hps u).1 hp, countChildren_append, countChildren_map_pair, if_pos rfl]
        omega
      · have hup : u ≠ p := fun he => hp (he ▸ hu)
        have h2 := (ih (rem.drop (min rem.length mc))
          (edges ++ (rem.take (min rem.length mc)).map (fun c => (p, c))) hps u).2 hu
        rw [countChildren_append, countChildren_map_pair, if_neg hup] at h2
        omega

lemma addLeaves_edges_mem (mc : Nat) :
    ∀ (ps rem : List Nat) (edges : Edges), ∀ e ∈ (addLeaves mc ps rem edges).1,
      e ∈ edges ∨ (e.1 ∈ ps ∧ e.2 ∈ rem) := by
  intro ps
  induction ps with
  | nil =>
    intro rem edges e he
    left
    simpa [addLeaves] using he
  | cons p ps ih =>
    intro rem edges e he
    rw [addLeaves] at he
    rcases ih _ _ e he with h1 | h2
    · rcases List.mem_append.mp h1 with ha | hb
      · left
        exact ha
      · obtain ⟨x, hx, rfl⟩ := List.mem_map.mp hb
        right
        exact ⟨List.mem_cons_self p ps, List.take_subset _ _ hx⟩
    · right
      exact ⟨List.mem_cons_of_mem p h2.1, List.drop_subset _ _ h2.2⟩

lemma init_inv (N mc : Nat) : Inv N mc ⟨N + 1, []⟩ [0] := by
  unfold Inv
  dsimp only
  refine ⟨List.nodup_singleton 0, ?_, ?_, ?_, ?_, ?_, ?_⟩
  · intro p _
    rfl
  · intro p hp
    simp at hp
    omega
  · intro p hp
    simp at hp
    omega
  · intro u
    simp [countChildren]
  · intro e he
    exact absurd he (List.not_mem_nil e)
  · omega

lemma run_rec_spec (N mc : Nat) (F : List Nat) (stF : TreeState)
    (hInv : Inv N mc stF F) (hcap : N ≤ F.length * mc) :
    (addLeaves mc F (queuedIds N) stF.edges).2 = [] ∧
    (∀ c ∈ queuedIds N, countParents (addLeaves mc F (queuedIds N) stF.edges).1 c = 1 ∧
        countChildren (addLeaves mc F (queuedIds N) stF.edges).1 c = 0) ∧
    (∀ u, countChildren (addLeaves mc F (queuedIds N) stF.edges).1 u ≤ mc) := by
  obtain ⟨hnd, hzero, hlt, hrange, hbound, hedge, hnext⟩ := hInv
  have hleftlen := addLeaves_leftover mc F (queuedIds N) stF.edges
  rw [length_queuedIds] at hleftlen
  have hleft : (addLeaves mc F (queuedIds N) stF.edges).2 = [] := by
    apply List.length_eq_zero.mp
    omega
  refine ⟨hleft, ?_, ?_⟩
  · intro c hc
    obtain ⟨hc1, hc2⟩ := mem_queuedIds.mp hc
    constructor
    · have h := addLeaves_countParents mc F (queuedIds N) stF.edges c
      rw [hleft] at h
      have hz : countParents stF.edges c = 0 := by
        apply countParents_eq_zero
        intro e he
        have := (hedge e he).1.1
        omega
      have hcnt : (queuedIds N).count c = 1 :=
        List.count_eq_one_of_mem (nodup_queuedIds N) hc
      simp only [List.count_nil] at h
      omega
    · have hnotin : c ∉ F := by
        intro hin
        rcases hrange c hin with h0 | hge
        · omega
        · omega
      rw [(addLeaves_countChildren mc F (queuedIds N) stF.edges hnd c).1 hnotin]
      apply countChildren_eq_zero
      intro e he
      rcases (hedge e he).2.1 with h0 | hge
      · omega
      · omega
  · intro u
    by_cases hu : u ∈ F
    · have h := (addLeaves_countChildren mc F (queuedIds N) stF.edges hnd u).2 hu
      rw [hzero u hu] at h
      omega
    · rw [(addLeaves_countChildren mc F (queuedIds N) stF.edges hnd u).1 hu]
      exact hbound u

lemma childTreeRun_spec (N mc : Nat) (hmc : 2 ≤ mc) :
    (childTreeJobRun N mc).2 = [] ∧
    (∀ c ∈ queuedIds N, countParents (childTreeJobRun N mc).1 c = 1 ∧
        countChildren (childTreeJobRun N mc).1 c = 0) ∧
    (∀ u, countChildren (childTreeJobRun N mc).1 u ≤ mc) := by
  by_cases hN : N ≤ mc
  · have hrun : childTreeJobRun N mc = ⟨(queuedIds N).map (fun c => (0, c)), []⟩ := by
      simp only [childTreeJobRun, if_pos hN]
    rw [hrun]
    refine ⟨rfl, ?_, ?_⟩
    · intro c hc
      obtain ⟨h1, h2⟩ := mem_queuedIds.mp hc
      constructor
      · rw [countParents_map_pair]
        exact List.count_eq_one_of_mem (nodup_queuedIds N) hc
      · apply countChildren_eq_zero
        intro e he
        obtain ⟨x, hx, rfl⟩ := List.mem_map.mp he
        intro h0
        dsimp only at h0
        omega
    · intro u
      by_cases hu : u = 0
      · subst hu
        rw [countChildren_map_pair, if_pos rfl, length_queuedIds]
        exact hN
      · rw [countChildren_map_pair, if_neg hu]
        omega
  · push_neg at hN
    have hmc1 : 1 ≤ mc := by omega
    have hinv := buildLevels_inv N mc (floorLog mc N) [0] ⟨N + 1, []⟩ (init_inv N mc)
    have hcap : N ≤ (buildLevels mc N (floorLog mc N) [0] ⟨N + 1, []⟩).2.length * mc := by
      rcases buildLevels_capacity N mc hmc1 (floorLog mc N) [0] ⟨N + 1, []⟩ with h | h
      · have hpow := floorLog_bound mc N hmc
        have h1 : mc ^ floorLog mc N ≤
            (buildLevels mc N (floorLog mc N) [0] ⟨N + 1, []⟩).2.length := by
          simpa using h
        have h2 := Nat.mul_le_mul_right mc h1
        rw [← pow_succ] at h2
        omega
      · exact h
    have hrun : childTreeJobRun N mc =
        addLeaves mc (buildLevels mc N (floorLog mc N) [0] ⟨N + 1, []⟩).2 (queuedIds N)
          (buildLevels mc N (floorLog mc N) [0] ⟨N + 1, []⟩).1.edges := by
      simp only [childTreeJobRun, if_neg (show ¬ N ≤ mc by omega)]
    rw [hrun]
    exact run_rec_spec N mc _ _ hinv hcap

/-! Claim theorems for the process invoker, rounding, and work directory
inference. -/

/-- Claim C2: once the child has terminated, check_result mode returns the
child's return code unchanged and never raises (so exit 0 returns 0 and
exit 7 returns 7); otherwise a positive return code raises an exit error
carrying the code and the captured output, and a negative return code
(termination by signal) raises a signal error carrying that signal's name
and the captured output. -/
theorem cactusCall_result_classification (check_output swallowStdErr : Bool)
    (rc : Int) (output stderr : Option String) :
    (cactusCallResult true check_output swallowStdErr rc output stderr = .retCode rc) ∧
    (0 < rc → cactusCallResult false check_output swallowStdErr rc output stderr =
      .raisedExit rc (callDiag output stderr swallowStdErr)) ∧
    (rc < 0 → cactusCallResult false check_output swallowStdErr rc output stderr =
      .raisedSignal (signalName (-rc).toNat) (callDiag output stderr swallowStdErr)) := by
  refine ⟨rfl, ?_, ?_⟩
  · intro h
    have h0 : rc ≠ 0 := ne_of_gt h
    simp [cactusCallResult, h0, h]
  · intro h
    have h0 : rc ≠ 0 := ne_of_lt h
    have hnp : ¬ (rc > 0) := not_lt.mpr (le_of_lt h)
    simp [cactusCallResult, h0, hnp]

/-- Claim C2 witness: exit 0 and exit 7 under check_result return 0 and 7,
and a child killed by signal 9 raises an error carrying SIGKILL. -/
theorem cactusCall_result_classification_witness :
    cactusCallResult true false false 0 none none = .retCode 0 ∧
    cactusCallResult true false false 7 none none = .retCode 7 ∧
    cactusCallResult false false false (-9) none none =
      .raisedSignal ("SIGKILL") (callDiag none none false) := by
  refine ⟨(cactusCall_result_classification false false 0 none none).1,
    (cactusCall_result_classification false false 7 none none).1, ?_⟩
  have h := (cactusCall_result_classification false false (-9) none none).2.2 (by norm_num)
  rw [h]
  decide

/-- Claim C3 helper: starting from any earlier poll boundary, the loop
reaches the first poll past the soft timeout and returns softTimedOut. -/
lemma cactusCallPoll_soft (s : Nat) (termT : Option Nat) (rc : Int)
    (hrun : ∀ t, termT = some t → 10 * (s / 10 + 1) < t) :
    ∀ fuel i, i ≤ s / 10 → s / 10 + 1 - i ≤ fuel →
      cactusCallPoll (some s) termT rc fuel (10 * i) = some (.softTimedOut SIGINT) := by
  intro fuel
  induction fuel with
  | zero => intro i hi hf; omega
  | succ n ih =>
    intro i hi hf
    have hdone : doneBy termT (10 * i + 10) = false := by
      cases termT with
      | none => rfl
      | some t =>
        have := hrun t rfl
        simp only [doneBy, decide_eq_false_iff_not]
        omega
    rw [cactusCallPoll, hdone, if_neg Bool.false_ne_true]
    by_cases hlast : i = s / 10
    · subst hlast
      have hsoft : softExpired (some s) (10 * (s / 10) + 10) = true := by
        simp only [softExpired, decide_eq_true_eq]
        omega
      rw [hsoft, if_pos rfl]
    · have hsoftF : softExpired (some s) (10 * i + 10) = false := by
        simp only [softExpired, decide_eq_false_iff_not]
        omega
      rw [hsoftF, if_neg Bool.false_ne_true]
      have heq : 10 * i + 10 = 10 * (i + 1) := by ring
      rw [heq]
      exact ih (i + 1) (by omega) (by omega)

/-- Claim C3: with a soft timeout configured and the child still running
when a poll finds more than soft_timeout seconds elapsed, the loop sends
SIGINT to the child and returns an absent result at that poll, raising
nothing. -/
theorem cactusCall_soft_timeout (s : Nat) (termT : Option Nat) (rc : Int) (fuel : Nat)
    (hrun : ∀ t, termT = some t → 10 * (s / 10 + 1) < t)
    (hfuel : s / 10 + 1 ≤ fuel) :
    cactusCallPoll (some s) termT rc fuel 0 = some (.softTimedOut SIGINT) := by
  have h := cactusCallPoll_soft s termT rc hrun fuel 0 (Nat.zero_le _) (by omega)
  simpa using h

/-- Claim C3 witness: a five second soft timeout on a child that never
finishes returns softTimedOut SIGINT at the first ten second poll. -/
theorem cactusCall_soft_timeout_witness :
    cactusCallPoll (some 5) none 0 1 0 = some (.softTimedOut SIGINT) :=
  cactusCall_soft_timeout 5 none 0 1 (fun t h => nomatch h) (by norm_num)

/-- Claim C4: a Command given as a list of argument lists is assembled by
shell-quoting every token of every stage, joining the stages with the pipe
separator, prefixing the pipefail guard, and executing through bash -c; the
docker backend additionally forces the container entry point to /bin/bash
instead of the default wrapper entry point, dropping the leading bash
token.  The concrete instance shows a token with a space being quoted. -/
theorem pipe_chain_construction (stages : List (List String)) :
    pipeChainParams stages =
      ["bash", "-c",
        pipefailPrelude ++ String.intercalate (" | ")
          (stages.map (fun q => String.intercalate (" ") (q.map shellQuote)))] ∧
    (pipeChainDocker stages).1 = "/bin/bash" ∧
    (pipeChainDocker stages).2 = ["-c", chainJoined stages] ∧
    dockerEntrypoint (some ("/bin/bash")) = "/bin/bash" ∧
    dockerEntrypoint none = "/opt/cactus/wrapper.sh" ∧
    dockerEntrypoint (some ("/bin/bash")) ≠ dockerEntrypoint none ∧
    pipeChainParams [["echo", "a b"], ["wc", "-l"]] =
      ["bash", "-c", "set -eo pipefail && echo 'a b' | wc -l"] := by
  refine ⟨rfl, rfl, rfl, rfl, rfl, by decide, by decide⟩

/-- Claim C5 counterexample: with a declared disk requirement of 0 bytes the
surcharge the code adds is 1500 * 2^20 = 1572864000 bytes, which is not
1.5 GiB = 1536 * 2^20 = 1610612736 bytes. -/
theorem roundedJob_disk_surcharge_value :
    (roundedJobInit none (some 0)).disk = some 1572864000 ∧
    (roundedJobInit none (some 0)).disk ≠ some 1610612736 := by
  constructor <;> decide

/-- Claim C5 (amended): at construction RoundedJob replaces a declared
memory requirement by roundUp memory, the least multiple of 100 MiB that is
at least the requirement (exact multiples unchanged, roundUp 0 = 0,
roundUp of 100 MiB is 100 MiB, of 100 MiB + 1 byte is 200 MiB), and
replaces a declared disk requirement by a fixed 1500 MiB surcharge plus
roundUp disk. -/
theorem roundedJob_rounding_policy (m d : Nat) :
    (roundedJobInit (some m) (some d)).memory = some (roundUp m) ∧
    m ≤ roundUp m ∧
    roundUp m % roundingAmount = 0 ∧
    (∀ k, m ≤ k → k % roundingAmount = 0 → roundUp m ≤ k) ∧
    roundUp 0 = 0 ∧
    roundUp (100 * 1024 * 1024) = 100 * 1024 * 1024 ∧
    roundUp (100 * 1024 * 1024 + 1) = 200 * 1024 * 1024 ∧
    (roundedJobInit (some m) (some d)).disk = some (1500 * 1024 * 1024 + roundUp d) := by
  obtain ⟨h1, h2, h3⟩ := roundUp_spec m
  exact ⟨rfl, h1, h2, h3, by decide, by decide, by decide, rfl⟩

/-- Claim C5 witness: the rounding policy evaluated at memory 5 and disk 7,
with the minimality part discharged at the multiple 104857600. -/
theorem roundedJob_rounding_policy_witness :
    (roundedJobInit (some 5) (some 7)).memory = some (roundUp 5) ∧ roundUp 5 ≤ 104857600 := by
  have h := roundedJob_rounding_policy 5 7
  exact ⟨h.1, h.2.2.2.1 104857600 (by norm_num) (by norm_num [roundingAmount])⟩

/-- Claim C8: across the successful peak-memory samples of one container the
recorded peak never decreases (each accepted sample is at least the previous
recorded peak), and a sample strictly below the recorded peak fires the
assertion instead of being accepted. -/
theorem peak_memory_monotonic (samples : List (Option Nat)) (init : Nat)
    (trace : List Nat) (h : memCheckTrace init samples = some trace) :
    List.Chain (· ≤ ·) init trace ∧
    ∀ memUsage s, s < memUsage → memCheckStep memUsage (some s) = none := by
  refine ⟨memCheckTrace_chain samples init trace h, ?_⟩
  intro memUsage s hs
  simp [memCheckStep, not_le.mpr hs]

/-- Claim C8 witness: the sample run 5, failed sample, 7 is accepted with a
nondecreasing recorded trace, and a decreasing test double is rejected. -/
theorem peak_memory_monotonic_witness :
    List.Chain (· ≤ ·) 0 [5, 5, 7] ∧
    ∀ memUsage s, s < memUsage → memCheckStep memUsage (some s) = none :=
  peak_memory_monotonic [some 5, none, some 7] 0 [5, 5, 7] (by decide)

/-- Claim C9: with no explicit WorkDir, prepareWorkDir infers exactly one
directory from the parent directories of the arguments that are existing
files or directories: when they all lie in a single parent directory the
WorkDir is that directory (the empty relative parent denoting the current
directory as "."), and when they span several the WorkDir is the common
prefix of those directory paths, characterised below as the longest common
string prefix. -/
theorem workdir_inference (isFile isDir : String → Bool) (parameters : List String) :
    (∀ d, inferredDirs isFile isDir parameters = [d] →
      prepareWorkDirInfer isFile isDir parameters = if d = "" then "." else d) ∧
    (1 < (inferredDirs isFile isDir parameters).length →
      (prepareWorkDirInfer isFile isDir parameters =
        (if (⟨commonPref ((inferredDirs isFile isDir parameters).map String.toList)⟩ : String) = ""
          then "." else ⟨commonPref ((inferredDirs isFile isDir parameters).map String.toList)⟩)) ∧
      (∀ d ∈ inferredDirs isFile isDir parameters,
        commonPref ((inferredDirs isFile isDir parameters).map String.toList) <+: d.toList) ∧
      (∀ c, (∀ d ∈ inferredDirs isFile isDir parameters, c <+: d.toList) →
        c <+: commonPref ((inferredDirs isFile isDir parameters).map String.toList))) := by
  constructor
  · intro d hd
    unfold prepareWorkDirInfer
    rw [hd]
    norm_num
  · intro hlen
    have hne : (inferredDirs isFile isDir parameters).map String.toList ≠ [] := by
      intro hc
      rw [← List.length_eq_zero, List.length_map] at hc
      omega
    obtain ⟨hpref, hmax⟩ := commonPref_spec _ hne
    refine ⟨?_, ?_, ?_⟩
    · unfold prepareWorkDirInfer
      simp only [if_pos hlen]
    · intro d hd
      exact hpref d.toList (List.mem_map_of_mem String.toList hd)
    · intro c hc
      refine hmax c ?_
      intro d hd
      obtain ⟨e, he, hde⟩ := List.mem_map.mp hd
      rw [← hde]
      exact hc e he

/-- Claim C9 witness: two files sharing the parent directory /tmp/work give
WorkDir /tmp/work. -/
theorem workdir_inference_witness :
    prepareWorkDirInfer
      (fun s => decide (s = "/tmp/work/a.txt") || decide (s = "/tmp/work/b.txt"))
      (fun _ => false) ["/tmp/work/a.txt", "/tmp/work/b.txt"] = "/tmp/work" := by
  have h := (workdir_inference
      (fun s => decide (s = "/tmp/work/a.txt") || decide (s = "/tmp/work/b.txt"))
      (fun _ => false) ["/tmp/work/a.txt", "/tmp/work/b.txt"]).1 "/tmp/work" (by decide)
  rw [h]
  decide

/-- Claim C10: ChildTreeJob.addChild only appends the job to the unit's
internal queue and returns it unchanged; the unit's actual child list in
the scheduling graph is untouched (queued children are attached only by the
run step, embedded as childTreeJobRun). -/
theorem addChild_only_queues (st : ChildTreeJobState) (job : Nat) :
    (addChild st job).2 = job ∧
    (addChild st job).1.children = st.children ∧
    (addChild st job).1.queuedChildJobs = st.queuedChildJobs ++ [job] :=
  ⟨rfl, rfl, rfl⟩

/-- Claim C1: for every queue size N and fanout bound maxChildrenPerJob of
at least 2, the run step attaches every queued job as a leaf exactly once
(each occurs once as a child and has no children of its own), the final
assert finds nothing unattached, and every unit of the resulting graph,
the root included, has at most maxChildrenPerJob direct children. -/
theorem childTree_fanout_invariant (N mc : Nat) (hmc : 2 ≤ mc) :
    (childTreeJobRun N mc).2 = [] ∧
    (∀ c ∈ queuedIds N, countParents (childTreeJobRun N mc).1 c = 1 ∧
        countChildren (childTreeJobRun N mc).1 c = 0) ∧
    (∀ u, countChildren (childTreeJobRun N mc).1 u ≤ mc) :=
  childTreeRun_spec N mc hmc

/-- Claim C1 witness: the invariant at N = 45 queued jobs and
maxChildrenPerJob = 4 (which exercises the tree-building path). -/
theorem childTree_fanout_invariant_witness :
    (childTreeJobRun 45 4).2 = [] ∧
    countParents (childTreeJobRun 45 4).1 7 = 1 ∧
    countChildren (childTreeJobRun 45 4).1 0 ≤ 4 := by
  have h := childTree_fanout_invariant 45 4 (by norm_num)
  exact ⟨h.1, (h.2.1 7 (by decide)).1, h.2.2 0⟩

/-- Claim C6: when the queue fits under maxChildrenPerJob, no grouping
units are created: every queued job is attached directly under the root,
whose child count is exactly N. -/
theorem childTree_small_queue (N mc : Nat) (h : N ≤ mc) :
    (childTreeJobRun N mc).1 = (queuedIds N).map (fun c => (0, c)) ∧
    countChildren (childTreeJobRun N mc).1 0 = N ∧
    (∀ e ∈ (childTreeJobRun N mc).1, e.1 = 0 ∧ e.2 ∈ queuedIds N) ∧
    (childTreeJobRun N mc).2 = [] := by
  have hrun : childTreeJobRun N mc = ⟨(queuedIds N).map (fun c => (0, c)), []⟩ := by
    simp only [childTreeJobRun, if_pos h]
  rw [hrun]
  refine ⟨rfl, ?_, ?_, rfl⟩
  · rw [countChildren_map_pair, if_pos rfl, length_queuedIds]
  · intro e he
    obtain ⟨x, hx, rfl⟩ := List.mem_map.mp he
    exact ⟨rfl, hx⟩

/-- Claim C6 witness: three queued jobs under a fanout bound of twenty all
hang directly off the root. -/
theorem childTree_small_queue_witness :
    countChildren (childTreeJobRun 3 20).1 0 = 3 ∧ (childTreeJobRun 3 20).2 = [] := by
  have h := childTree_small_queue 3 20 (by norm_num)
  exact ⟨h.2.1, h.2.2.2⟩

/-- Claim C7 counterexample: for N = 500 and maxChildrenPerJob = 20 the run
step creates exactly 60 grouping units, not strictly fewer than
500 / 19 (at most 26) as claimed. -/
theorem childTree_500_20_grouping_count :
    (groupingUnits 500 (childTreeJobRun 500 20).1).length = 60 ∧
    ¬ (groupingUnits 500 (childTreeJobRun 500 20).1).length ≤ 26 := by
  constructor <;> decide

/-- Claim C7 (amended): for N = 500 and maxChildrenPerJob = 20 the run step
creates the 500 leaves (each queued job occurs exactly once as a child)
plus exactly 60 grouping units, and at most 3 levels of grouping units
below the root: in fact every grouping unit sits at depth 1 or 2. -/
theorem childTree_500_20_profile :
    (groupingUnits 500 (childTreeJobRun 500 20).1).length = 60 ∧
    ((groupingUnits 500 (childTreeJobRun 500 20).1).all
      (fun g => (nodesAtDepth (childTreeJobRun 500 20).1 1 ++
        nodesAtDepth (childTreeJobRun 500 20).1 2).contains g)) = true ∧
    (∀ c ∈ queuedIds 500, countParents (childTreeJobRun 500 20).1 c = 1) := by
  refine ⟨by decide, by decide, ?_⟩
  intro c hc
  exact ((childTreeRun_spec 500 20 (by norm_num)).2.1 c hc).1

/-- Claim C7 witness: queued job 1 occurs exactly once as a child in the
N = 500, maxChildrenPerJob = 20 graph. -/
theorem childTree_500_20_profile_witness :
    countParents (childTreeJobRun 500 20).1 1 = 1 :=
  childTree_500_20_profile.2.2 1 (by decide)

end Cactus
